import Mathlib

/-!
Shallow embedding of the core tracing pipeline of the raytracer repository
(src/lib.rs, src/hittable.rs, src/material.rs, src/render.rs).

`f64` arithmetic is idealized over the reals.  The upper intersection bound
is modelled as `WithTop ℝ` because the integrator queries `World::hit` with
`f64::INFINITY`.  The external linear-algebra library (`elgan_math`) supplies
dot/cross/normalize/matrix-inverse; those capabilities are embedded with
their mathematical meaning, as the spec's §6 describes them.  Randomness
consumed by materials (`random_in_hemisphere`, `random_inside_sphere`,
`rand::random()`) is passed in explicitly as data.
-/

set_option maxHeartbeats 1000000

namespace RT

noncomputable section

/-- Three-component vector, modelling the algebra library's `ColumnVec<3>`
of `f64`, idealized over ℝ. -/
@[ext]
structure Vec3 where
  x : ℝ
  y : ℝ
  z : ℝ

instance : Zero Vec3 := ⟨⟨0, 0, 0⟩⟩

instance : Add Vec3 := ⟨fun u v => ⟨u.x + v.x, u.y + v.y, u.z + v.z⟩⟩

instance : Sub Vec3 := ⟨fun u v => ⟨u.x - v.x, u.y - v.y, u.z - v.z⟩⟩

instance : Neg Vec3 := ⟨fun v => ⟨-v.x, -v.y, -v.z⟩⟩

instance : SMul ℝ Vec3 := ⟨fun a v => ⟨a * v.x, a * v.y, a * v.z⟩⟩

/-- Dot product (`ColumnVec * ColumnVec` in the Rust source). -/
def Vec3.dot (u v : Vec3) : ℝ := u.x * v.x + u.y * v.y + u.z * v.z

/-- Cross product of the algebra library. -/
def Vec3.cross (u v : Vec3) : Vec3 :=
  ⟨u.y * v.z - u.z * v.y, u.z * v.x - u.x * v.z, u.x * v.y - u.y * v.x⟩

/-- Euclidean length supplied by the algebra library. -/
def Vec3.length (v : Vec3) : ℝ := Real.sqrt (v.dot v)

/-- Normalization supplied by the algebra library (`.normalized()`). -/
def Vec3.normalized (v : Vec3) : Vec3 := (1 / v.length) • v

/-- Component-wise product (`component_mul` in the source). -/
def Vec3.compMul (u v : Vec3) : Vec3 := ⟨u.x * v.x, u.y * v.y, u.z * v.z⟩

/-- A ray: origin plus direction (src/lib.rs). -/
structure Ray where
  origin : Vec3
  direction : Vec3

/-- Point at parameter: `origin + t*direction` (src/lib.rs `Ray::at`). -/
def Ray.at (r : Ray) (t : ℝ) : Vec3 := r.origin + t • r.direction

/-- Color choice carried by every material (src/material.rs `ColorType`). -/
inductive ColorType where
  | solid (c : Vec3)
  | normal
  | checker (a b : Vec3) (f : ℝ)

/-- Closed set of material variants (src/material.rs). -/
inductive Material where
  | lambertian (color : ColorType)
  | metal (color : ColorType) (fuzz : ℝ)
  | dielectric (ir : ℝ) (color : ColorType)
  | emissive (color : ColorType)

/-- Record of a successful intersection (src/hittable.rs `HitRecord`). -/
structure HitRecord where
  point : Vec3
  normal : Vec3
  t : ℝ
  front_face : Bool
  material : Material

/-- Constructor of hit records (src/hittable.rs `HitRecord::new`): the front
face flag is the sign of `ray.direction * normal`, and the stored normal is
flipped against the incoming ray. -/
def HitRecord.new (ray : Ray) (normal : Vec3) (t : ℝ) (material : Material) :
    HitRecord :=
  let front_face : Bool := decide (Vec3.dot ray.direction normal < 0)
  ⟨ray.at t, if front_face then normal else -normal, t, front_face, material⟩

/-- Color evaluation (src/material.rs `ColorType::color`); the checker arm
floor-divides the hit point's coordinates by the cell size and tests the
parity of the index sum. -/
def ColorType.color (c : ColorType) (rec : HitRecord) : Vec3 :=
  match c with
  | .solid x => x
  | .normal => (0.5 : ℝ) • rec.normal + ⟨0.5, 0.5, 0.5⟩
  | .checker x y f =>
      if (⌊rec.point.x / f⌋ + ⌊rec.point.y / f⌋ + ⌊rec.point.z / f⌋) % 2 = 0
      then x else y

/-- One bundle of the random draws a single `scatter` call may consume:
`random_in_hemisphere`, `random_inside_sphere`, and `rand::random()`. -/
structure Rand where
  hemi : Vec3
  insphere : Vec3
  uniform : ℝ

/-- Modelled from the spec (§4.3, §6): the algebra library's
`Matrix::reflection_normal_vec(n) * v` — mirror reflection of `v` about the
plane with normal `n`. -/
def reflectLib (n v : Vec3) : Vec3 := v - (2 * Vec3.dot v n) • n

/-- Snell refraction helper (src/material.rs `refract`). -/
def refract (vec n : Vec3) (eta : ℝ) : Vec3 :=
  let v := vec.normalized
  let cosTheta := -(Vec3.dot v n)
  let perpendicular := eta • (v + cosTheta • n)
  let parallel := (-Real.sqrt (1 - perpendicular.length ^ 2)) • n
  perpendicular + parallel

/-- Mirror reflection helper (src/material.rs `reflect`). -/
def reflect (vec n : Vec3) : Vec3 :=
  let v := vec.normalized
  v - (2 * Vec3.dot v n) • n

/-- Schlick reflectance approximation (src/material.rs `refelctance`,
keeping the source's spelling). -/
def refelctance (cosine ref_index : ℝ) : ℝ :=
  let r0 := (1 - ref_index) / (1 + ref_index)
  let r0sq := r0 * r0
  r0sq + (1 - r0sq) * (1 - cosine) ^ 5

/-- Material scattering protocol (src/material.rs, the four `impl Material`
blocks).  `rnd` carries the random draws the Rust code samples internally;
`closeEnough` is the algebra library's `close_enough` degeneracy test. -/
def Material.scatter (m : Material) (ray : Ray) (rec : HitRecord) (rnd : Rand)
    (closeEnough : Vec3 → Vec3 → Bool) : Option Ray × Option Vec3 :=
  match m with
  | .lambertian color =>
      let sd := rnd.hemi
      let sd' := if closeEnough sd 0 then rec.normal else sd
      (some ⟨rec.point, sd'⟩, some (color.color rec))
  | .metal color fuzz =>
      let reflected := reflectLib rec.normal ray.direction.normalized
      (some ⟨rec.point, reflected + fuzz • rnd.insphere⟩, some (color.color rec))
  | .dielectric ir color =>
      let eta := if rec.front_face then 1 / ir else ir
      let cosTheta := -(Vec3.dot ray.direction.normalized rec.normal)
      let sinTheta := Real.sqrt (1 - cosTheta * cosTheta)
      let refracted :=
        if 1 < eta * sinTheta ∨ rnd.uniform < refelctance cosTheta eta then
          reflect ray.direction rec.normal
        else refract ray.direction rec.normal eta
      (some ⟨rec.point, refracted⟩, some (color.color rec))
  | .emissive color => (none, some (color.color rec))

/-- Discriminates the emissive variant. -/
def Material.isEmissive : Material → Bool
  | .emissive _ => true
  | _ => false

/-- Open-interval acceptance test shared by every `hit` implementation:
`t_min < t && t < t_max` with the upper bound possibly `f64::INFINITY`. -/
def inRange (t_min : ℝ) (t_max : WithTop ℝ) (t : ℝ) : Prop :=
  t_min < t ∧ (t : WithTop ℝ) < t_max

instance (t_min : ℝ) (t_max : WithTop ℝ) (t : ℝ) :
    Decidable (inRange t_min t_max t) := instDecidableAnd

/-- 3×3 matrix held as its three columns, modelling the algebra library's
`Matrix::from_columns`. -/
structure Mat3 where
  c0 : Vec3
  c1 : Vec3
  c2 : Vec3

/-- Matrix of given columns (`Matrix::from_columns([a, b, c])`). -/
def Mat3.fromColumns (a b c : Vec3) : Mat3 := ⟨a, b, c⟩

/-- Matrix–vector product: the column combination `v.x*c0 + v.y*c1 + v.z*c2`. -/
def Mat3.mulVec (m : Mat3) (v : Vec3) : Vec3 :=
  v.x • m.c0 + v.y • m.c1 + v.z • m.c2

/-- Determinant as the triple product of the columns. -/
def Mat3.det (m : Mat3) : ℝ := Vec3.dot m.c0 (m.c1.cross m.c2)

/-- Modelled from the spec (§6): the algebra library's `Matrix::inverse`,
which signals non-invertibility instead of producing NaNs.  Computed by the
adjugate: the rows of the inverse are the column cross products over the
determinant. -/
def Mat3.inverse (m : Mat3) : Option Mat3 :=
  if m.det = 0 then none
  else
    let r0 := m.c1.cross m.c2
    let r1 := m.c2.cross m.c0
    let r2 := m.c0.cross m.c1
    some ⟨(1 / m.det) • ⟨r0.x, r1.x, r2.x⟩,
          (1 / m.det) • ⟨r0.y, r1.y, r2.y⟩,
          (1 / m.det) • ⟨r0.z, r1.z, r2.z⟩⟩

/-- A sphere primitive (src/hittable.rs). -/
structure Sphere where
  center : Vec3
  radius : ℝ
  material : Material

/-- Quadratic coefficient `a = ray.direction * ray.direction` of
`Sphere::hit`. -/
def sA (r : Ray) : ℝ := Vec3.dot r.direction r.direction

/-- Quadratic coefficient `half_b = oc * ray.direction` of `Sphere::hit`,
with `oc = ray.origin - center`. -/
def sHalfB (s : Sphere) (r : Ray) : ℝ :=
  Vec3.dot (r.origin - s.center) r.direction

/-- Quadratic coefficient `c = oc * oc - radius * radius` of `Sphere::hit`. -/
def sC (s : Sphere) (r : Ray) : ℝ :=
  Vec3.dot (r.origin - s.center) (r.origin - s.center) - s.radius * s.radius

/-- Discriminant `half_b * half_b - a * c` of `Sphere::hit`. -/
def sDiscrim (s : Sphere) (r : Ray) : ℝ :=
  sHalfB s r * sHalfB s r - sA r * sC s r

/-- The root tested first by `Sphere::hit`:
`(-half_b - discrim.sqrt()) / a`. -/
def sRoot1 (s : Sphere) (r : Ray) : ℝ :=
  (-sHalfB s r - Real.sqrt (sDiscrim s r)) / sA r

/-- The root tested second by `Sphere::hit`:
`(-half_b + discrim.sqrt()) / a`. -/
def sRoot2 (s : Sphere) (r : Ray) : ℝ :=
  (-sHalfB s r + Real.sqrt (sDiscrim s r)) / sA r

/-- Ray/sphere intersection (src/hittable.rs `impl Hittable for Sphere`):
negative discriminant misses; otherwise the smaller root is tested against
the open interval first, then the larger. -/
def Sphere.hit (s : Sphere) (ray : Ray) (t_min : ℝ) (t_max : WithTop ℝ) :
    Option HitRecord :=
  if sDiscrim s ray < 0 then none
  else if inRange t_min t_max (sRoot1 s ray) then
    some (HitRecord.new ray ((ray.at (sRoot1 s ray) - s.center).normalized)
      (sRoot1 s ray) s.material)
  else if inRange t_min t_max (sRoot2 s ray) then
    some (HitRecord.new ray ((ray.at (sRoot2 s ray) - s.center).normalized)
      (sRoot2 s ray) s.material)
  else none

/-- A triangle primitive with `vertices[0..3]` (src/hittable.rs). -/
structure Triangle where
  v0 : Vec3
  v1 : Vec3
  v2 : Vec3
  material : Material

/-- Geometric normal of a triangle (src/hittable.rs `Triangle::normal`). -/
def Triangle.normal (tri : Triangle) : Vec3 :=
  ((tri.v1 - tri.v0).cross (tri.v2 - tri.v0)).normalized

/-- Local-frame matrix of `Triangle::hit`: columns are the two edge vectors
and the ray direction. -/
def Triangle.transform (tri : Triangle) (ray : Ray) : Mat3 :=
  Mat3.fromColumns (tri.v1 - tri.v0) (tri.v2 - tri.v0) ray.direction

/-- Ray/triangle intersection (src/hittable.rs `impl Hittable for Triangle`):
translate the ray to the first vertex, invert the local matrix (a singular
matrix is a miss), and accept the open triangle interior with the negated
third coordinate as the ray parameter. -/
def Triangle.hit (tri : Triangle) (ray : Ray) (t_min : ℝ) (t_max : WithTop ℝ) :
    Option HitRecord :=
  match (tri.transform ray).inverse with
  | none => none
  | some inv =>
    if 0 < (inv.mulVec (ray.origin - tri.v0)).x
        ∧ 0 < (inv.mulVec (ray.origin - tri.v0)).y
        ∧ (inv.mulVec (ray.origin - tri.v0)).x
            + (inv.mulVec (ray.origin - tri.v0)).y < 1
        ∧ inRange t_min t_max (-(inv.mulVec (ray.origin - tri.v0)).z) then
      some (HitRecord.new ray tri.normal (-(inv.mulVec (ray.origin - tri.v0)).z)
        tri.material)
    else none

/-- A parallelogram primitive with `vertices[0..3]` (src/hittable.rs). -/
structure Parallelogram where
  v0 : Vec3
  v1 : Vec3
  v2 : Vec3
  material : Material

/-- Geometric normal (src/hittable.rs `Parallelogram::normal`). -/
def Parallelogram.normal (pg : Parallelogram) : Vec3 :=
  ((pg.v1 - pg.v0).cross (pg.v2 - pg.v0)).normalized

/-- Local-frame matrix of `Parallelogram::hit`. -/
def Parallelogram.transform (pg : Parallelogram) (ray : Ray) : Mat3 :=
  Mat3.fromColumns (pg.v1 - pg.v0) (pg.v2 - pg.v0) ray.direction

/-- Ray/parallelogram intersection (src/hittable.rs `impl Hittable for
Parallelogram`): identical to the triangle test except both coordinates must
lie in the open unit interval independently. -/
def Parallelogram.hit (pg : Parallelogram) (ray : Ray) (t_min : ℝ)
    (t_max : WithTop ℝ) : Option HitRecord :=
  match (pg.transform ray).inverse with
  | none => none
  | some inv =>
    if 0 < (inv.mulVec (ray.origin - pg.v0)).x
        ∧ 0 < (inv.mulVec (ray.origin - pg.v0)).y
        ∧ (inv.mulVec (ray.origin - pg.v0)).x < 1
        ∧ (inv.mulVec (ray.origin - pg.v0)).y < 1
        ∧ inRange t_min t_max (-(inv.mulVec (ray.origin - pg.v0)).z) then
      some (HitRecord.new ray pg.normal (-(inv.mulVec (ray.origin - pg.v0)).z)
        pg.material)
    else none

/-- Closed set of primitive variants a `World` can own (the `Box<dyn
Hittable>` elements built by the repository). -/
inductive Object where
  | sphere (s : Sphere)
  | triangle (t : Triangle)
  | parallelogram (p : Parallelogram)

/-- Dispatch of the `Hittable::hit` capability over the closed variant set. -/
def Object.hit (o : Object) (ray : Ray) (t_min : ℝ) (t_max : WithTop ℝ) :
    Option HitRecord :=
  match o with
  | .sphere s => s.hit ray t_min t_max
  | .triangle t => t.hit ray t_min t_max
  | .parallelogram p => p.hit ray t_min t_max

/-- An ordered collection of primitives (src/hittable.rs `World`). -/
structure World where
  objects : List Object

/-- Loop body of `impl Hittable for World`: iterate the objects keeping the
running best record and shrinking the closest bound to each accepted hit's
`t`. -/
def worldHitAux (ray : Ray) (t_min : ℝ) :
    List Object → Option HitRecord → WithTop ℝ → Option HitRecord
  | [], result, _ => result
  | o :: os, result, closest =>
    match o.hit ray t_min closest with
    | some rec => worldHitAux ray t_min os (some rec) ((rec.t : ℝ) : WithTop ℝ)
    | none => worldHitAux ray t_min os result closest

/-- Nearest-hit aggregation (src/hittable.rs `impl Hittable for World`). -/
def World.hit (w : World) (ray : Ray) (t_min : ℝ) (t_max : WithTop ℝ) :
    Option HitRecord :=
  worldHitAux ray t_min w.objects none t_max

/-- Modelled from the spec (§4.2, §8): the reference result `World::hit` is
claimed to agree with — directly compute every individual intersection test
over the full interval and select the minimum-`t` record, the first object
in iteration order winning ties. -/
def minHit (ray : Ray) (t_min : ℝ) (t_max : WithTop ℝ) :
    List Object → Option HitRecord
  | [] => none
  | o :: os =>
    match o.hit ray t_min t_max, minHit ray t_min t_max os with
    | none, res => res
    | some rec, none => some rec
    | some rec, some best => if best.t < rec.t then some best else some rec

/-- Background gradient of `ray_color` (src/render.rs): blend two fixed
colors by the normalized direction's vertical component. -/
def background (r : Ray) : Vec3 :=
  let unit_dir := r.direction.normalized
  let t := 0.5 * unit_dir.y + 0.5
  (1 - t) • (⟨0.08, 0.1, 0.2⟩ : Vec3) + t • (⟨0.032, 0.04, 0.08⟩ : Vec3)

/-- Radiance integrator (src/render.rs `ray_color`): zero at exhausted
depth; otherwise query the world with the anti-acne epsilon and an infinite
upper bound, then scatter — attenuate and recurse, emit, or fall through to
the background gradient. -/
def ray_color (world : World) (r : Ray) (depth : ℤ) (rands : ℕ → Rand)
    (closeEnough : Vec3 → Vec3 → Bool) : Vec3 :=
  if depth ≤ 0 then 0
  else
    match World.hit world r 0.00069420 ⊤ with
    | some rec =>
      match rec.material.scatter r rec (rands 0) closeEnough with
      | (some scattered, some color) =>
          color.compMul
            (ray_color world scattered (depth - 1) (fun n => rands (n + 1))
              closeEnough)
      | (none, some color) => color
      | _ => background r
    | none => background r
termination_by depth.toNat
decreasing_by omega

/-- Tone mapping of one channel (src/lib.rs `to_color`): clamp to `[0,1]`,
square root, scale by 255, truncate to an integer. -/
def toColorChannel (i : ℝ) : ℕ := ⌊Real.sqrt (min (max i 0) 1) * 255⌋₊

/-- Tone mapping of a color vector (src/lib.rs `to_color`), per channel. -/
def to_color (v : Vec3) : ℕ × ℕ × ℕ :=
  (toColorChannel v.x, toColorChannel v.y, toColorChannel v.z)

/-- Checker cell index along the x axis: `(point.x / f).floor()`. -/
def cellX (p : Vec3) (f : ℝ) : ℤ := ⌊p.x / f⌋

/-- Checker cell index along the y axis. -/
def cellY (p : Vec3) (f : ℝ) : ℤ := ⌊p.y / f⌋

/-- Checker cell index along the z axis. -/
def cellZ (p : Vec3) (f : ℝ) : ℤ := ⌊p.z / f⌋

/-- Sum of the three floor-divided cell indices, the quantity whose parity
the checker pattern tests. -/
def cellSum (p : Vec3) (f : ℝ) : ℤ := cellX p f + cellY p f + cellZ p f

/-- Two points lie in cells that differ by exactly one along exactly one
axis. -/
def adjacentCell (p q : Vec3) (f : ℝ) : Prop :=
  (|cellX q f - cellX p f| = 1 ∧ cellY q f = cellY p f ∧ cellZ q f = cellZ p f)
  ∨ (cellX q f = cellX p f ∧ |cellY q f - cellY p f| = 1 ∧ cellZ q f = cellZ p f)
  ∨ (cellX q f = cellX p f ∧ cellY q f = cellY p f ∧ |cellZ q f - cellZ p f| = 1)

/-- Clipping of an optional hit record to a tighter upper bound: keep the
record only when its parameter beats the bound. -/
def clip (t' : WithTop ℝ) (o : Option HitRecord) : Option HitRecord :=
  o.bind fun rec => if ((rec.t : ℝ) : WithTop ℝ) < t' then some rec else none

/-- Concrete hit record used by witnesses. -/
def exRec : HitRecord :=
  ⟨⟨1, 2, 3⟩, ⟨0, 0, 1⟩, 1, true, .emissive (.solid 0)⟩

/-- Second concrete hit record, in the cell next to `exRec` along x. -/
def exRec2 : HitRecord :=
  ⟨⟨2, 2, 3⟩, ⟨0, 0, 1⟩, 1, true, .emissive (.solid 0)⟩

/-- Concrete random draw bundle used by witnesses. -/
def exRand : Rand := ⟨⟨0, 0, 1⟩, 0, 0⟩

/-- Concrete material used by witness scenes. -/
def exMat : Material := .emissive (.solid 0)

/-- Concrete sphere used by witnesses: unit sphere three units down the z
axis. -/
def exSphere : Sphere := ⟨⟨0, 0, 3⟩, 1, exMat⟩

/-- Concrete ray used by sphere witnesses: from the origin along +z. -/
def exRay : Ray := ⟨0, ⟨0, 0, 1⟩⟩

/-- Concrete unit-square parallelogram in the xy plane. -/
def exPgram : Parallelogram := ⟨⟨0, 0, 0⟩, ⟨1, 0, 0⟩, ⟨0, 1, 0⟩, exMat⟩

/-- Concrete ray used by parallelogram witnesses: points down onto the
square's interior. -/
def exRayP : Ray := ⟨⟨1 / 2, 1 / 4, 1⟩, ⟨0, 0, -1⟩⟩

@[simp] theorem Vec3.zero_x : (0 : Vec3).x = 0 := rfl

@[simp] theorem Vec3.zero_y : (0 : Vec3).y = 0 := rfl

@[simp] theorem Vec3.zero_z : (0 : Vec3).z = 0 := rfl

@[simp] theorem Vec3.add_x (u v : Vec3) : (u + v).x = u.x + v.x := rfl

@[simp] theorem Vec3.add_y (u v : Vec3) : (u + v).y = u.y + v.y := rfl

@[simp] theorem Vec3.add_z (u v : Vec3) : (u + v).z = u.z + v.z := rfl

@[simp] theorem Vec3.sub_x (u v : Vec3) : (u - v).x = u.x - v.x := rfl

@[simp] theorem Vec3.sub_y (u v : Vec3) : (u - v).y = u.y - v.y := rfl

@[simp] theorem Vec3.sub_z (u v : Vec3) : (u - v).z = u.z - v.z := rfl

@[simp] theorem Vec3.neg_x (v : Vec3) : (-v).x = -v.x := rfl

@[simp] theorem Vec3.neg_y (v : Vec3) : (-v).y = -v.y := rfl

@[simp] theorem Vec3.neg_z (v : Vec3) : (-v).z = -v.z := rfl

@[simp] theorem Vec3.smul_x (a : ℝ) (v : Vec3) : (a • v).x = a * v.x := rfl

@[simp] theorem Vec3.smul_y (a : ℝ) (v : Vec3) : (a • v).y = a * v.y := rfl

@[simp] theorem Vec3.smul_z (a : ℝ) (v : Vec3) : (a • v).z = a * v.z := rfl

@[simp] theorem HitRecord.new_t (ray : Ray) (n : Vec3) (t : ℝ) (m : Material) :
    (HitRecord.new ray n t m).t = t := rfl

@[simp] theorem HitRecord.new_point (ray : Ray) (n : Vec3) (t : ℝ) (m : Material) :
    (HitRecord.new ray n t m).point = ray.at t := rfl

@[simp] theorem clip_none (t' : WithTop ℝ) : clip t' none = none := rfl

@[simp] theorem clip_some (t' : WithTop ℝ) (rec : HitRecord) :
    clip t' (some rec)
      = if ((rec.t : ℝ) : WithTop ℝ) < t' then some rec else none := rfl

theorem inRange_mono {t_min : ℝ} {t_max t_max' : WithTop ℝ} (h : t_max' ≤ t_max)
    {t : ℝ} (ht : inRange t_min t_max' t) : inRange t_min t_max t :=
  ⟨ht.1, lt_of_lt_of_le ht.2 h⟩

theorem sA_nonneg (r : Ray) : 0 ≤ sA r := by
  simp only [sA, Vec3.dot]
  nlinarith [mul_self_nonneg r.direction.x, mul_self_nonneg r.direction.y,
    mul_self_nonneg r.direction.z]

theorem sRoot1_le_sRoot2 (s : Sphere) (r : Ray) : sRoot1 s r ≤ sRoot2 s r := by
  by_cases ha : sA r = 0
  · rw [sRoot1, sRoot2, ha, div_zero, div_zero]
  · have hpos : 0 < sA r := lt_of_le_of_ne (sA_nonneg r) (Ne.symm ha)
    rw [sRoot1, sRoot2]
    exact (div_le_div_iff_of_pos_right hpos).mpr
      (by linarith [Real.sqrt_nonneg (sDiscrim s r)])

theorem sphere_hit_t_bound {s : Sphere} {r : Ray} {t_min : ℝ}
    {t_max : WithTop ℝ} {rec : HitRecord} (h : s.hit r t_min t_max = some rec) :
    inRange t_min t_max rec.t := by
  unfold Sphere.hit at h
  split_ifs at h with hd h1 h2 <;>
    first
      | exact Option.noConfusion h
      | (injection h with h'
         rw [← h', HitRecord.new_t]
         assumption)

theorem triangle_hit_t_bound {tri : Triangle} {r : Ray} {t_min : ℝ}
    {t_max : WithTop ℝ} {rec : HitRecord}
    (h : tri.hit r t_min t_max = some rec) : inRange t_min t_max rec.t := by
  unfold Triangle.hit at h
  cases hinv : (tri.transform r).inverse with
  | none => rw [hinv] at h; exact Option.noConfusion h
  | some inv =>
    rw [hinv] at h
    simp only [Option.ite_none_right_eq_some, Option.some.injEq] at h
    obtain ⟨hc, h'⟩ := h
    rw [← h', HitRecord.new_t]
    exact hc.2.2.2

theorem pgram_hit_t_bound {pg : Parallelogram} {r : Ray} {t_min : ℝ}
    {t_max : WithTop ℝ} {rec : HitRecord}
    (h : pg.hit r t_min t_max = some rec) : inRange t_min t_max rec.t := by
  unfold Parallelogram.hit at h
  cases hinv : (pg.transform r).inverse with
  | none => rw [hinv] at h; exact Option.noConfusion h
  | some inv =>
    rw [hinv] at h
    simp only [Option.ite_none_right_eq_some, Option.some.injEq] at h
    obtain ⟨hc, h'⟩ := h
    rw [← h', HitRecord.new_t]
    exact hc.2.2.2.2

theorem object_hit_t_bound {o : Object} {r : Ray} {t_min : ℝ}
    {t_max : WithTop ℝ} {rec : HitRecord}
    (h : o.hit r t_min t_max = some rec) : inRange t_min t_max rec.t := by
  cases o with
  | sphere s => exact sphere_hit_t_bound h
  | triangle t => exact triangle_hit_t_bound h
  | parallelogram p => exact pgram_hit_t_bound h

theorem sphere_hit_restrict (s : Sphere) (r : Ray) (t_min : ℝ)
    {t_max t_max' : WithTop ℝ} (h : t_max' ≤ t_max) :
    s.hit r t_min t_max' = clip t_max' (s.hit r t_min t_max) := by
  unfold Sphere.hit
  by_cases hd : sDiscrim s r < 0
  · rw [if_pos hd, if_pos hd, clip_none]
  · rw [if_neg hd, if_neg hd]
    by_cases h1 : inRange t_min t_max (sRoot1 s r)
    · by_cases h1' : ((sRoot1 s r : ℝ) : WithTop ℝ) < t_max'
      · have e : inRange t_min t_max' (sRoot1 s r) := ⟨h1.1, h1'⟩
        rw [if_pos h1, if_pos e, clip_some, HitRecord.new_t, if_pos h1']
      · have e1 : ¬ inRange t_min t_max' (sRoot1 s r) := fun hh => h1' hh.2
        have e2 : ¬ inRange t_min t_max' (sRoot2 s r) := fun hh =>
          h1' (lt_of_le_of_lt (WithTop.coe_le_coe.mpr (sRoot1_le_sRoot2 s r))
            hh.2)
        rw [if_pos h1, if_neg e1, if_neg e2, clip_some, HitRecord.new_t,
          if_neg h1']
    · have e1 : ¬ inRange t_min t_max' (sRoot1 s r) := fun hh =>
        h1 (inRange_mono h hh)
      rw [if_neg h1, if_neg e1]
      by_cases h2 : inRange t_min t_max (sRoot2 s r)
      · by_cases h2' : ((sRoot2 s r : ℝ) : WithTop ℝ) < t_max'
        · have e : inRange t_min t_max' (sRoot2 s r) := ⟨h2.1, h2'⟩
          rw [if_pos h2, if_pos e, clip_some, HitRecord.new_t, if_pos h2']
        · have e : ¬ inRange t_min t_max' (sRoot2 s r) := fun hh => h2' hh.2
          rw [if_pos h2, if_neg e, clip_some, HitRecord.new_t, if_neg h2']
      · have e : ¬ inRange t_min t_max' (sRoot2 s r) := fun hh =>
          h2 (inRange_mono h hh)
        rw [if_neg h2, if_neg e, clip_none]

theorem clip_ite {C C' : Prop} [Decidable C] [Decidable C']
    {t_max' : WithTop ℝ} (rec : HitRecord)
    (hiff : C' ↔ (C ∧ ((rec.t : ℝ) : WithTop ℝ) < t_max')) :
    (if C' then some rec else none)
      = clip t_max' (if C then some rec else none) := by
  by_cases hC : C
  · by_cases ht : ((rec.t : ℝ) : WithTop ℝ) < t_max'
    · rw [if_pos (hiff.mpr ⟨hC, ht⟩), if_pos hC, clip_some, if_pos ht]
    · rw [if_neg (fun hc' => ht (hiff.mp hc').2), if_pos hC, clip_some,
        if_neg ht]
  · rw [if_neg (fun hc' => hC (hiff.mp hc').1), if_neg hC, clip_none]

theorem triangle_hit_restrict (tri : Triangle) (r : Ray) (t_min : ℝ)
    {t_max t_max' : WithTop ℝ} (h : t_max' ≤ t_max) :
    tri.hit r t_min t_max' = clip t_max' (tri.hit r t_min t_max) := by
  unfold Triangle.hit
  cases hinv : (tri.transform r).inverse with
  | none => rw [clip_none]
  | some inv =>
    refine clip_ite _ ?_
    rw [HitRecord.new_t]
    constructor
    · rintro ⟨a, b, c, d⟩
      exact ⟨⟨a, b, c, inRange_mono h d⟩, d.2⟩
    · rintro ⟨⟨a, b, c, d⟩, ht⟩
      exact ⟨a, b, c, ⟨d.1, ht⟩⟩

theorem pgram_hit_restrict (pg : Parallelogram) (r : Ray) (t_min : ℝ)
    {t_max t_max' : WithTop ℝ} (h : t_max' ≤ t_max) :
    pg.hit r t_min t_max' = clip t_max' (pg.hit r t_min t_max) := by
  unfold Parallelogram.hit
  cases hinv : (pg.transform r).inverse with
  | none => rw [clip_none]
  | some inv =>
    refine clip_ite _ ?_
    rw [HitRecord.new_t]
    constructor
    · rintro ⟨a, b, c, d, e⟩
      exact ⟨⟨a, b, c, d, inRange_mono h e⟩, e.2⟩
    · rintro ⟨⟨a, b, c, d, e⟩, ht⟩
      exact ⟨a, b, c, d, ⟨e.1, ht⟩⟩

theorem object_hit_restrict (o : Object) (r : Ray) (t_min : ℝ)
    {t_max t_max' : WithTop ℝ} (h : t_max' ≤ t_max) :
    o.hit r t_min t_max' = clip t_max' (o.hit r t_min t_max) := by
  cases o with
  | sphere s => exact sphere_hit_restrict s r t_min h
  | triangle t => exact triangle_hit_restrict t r t_min h
  | parallelogram p => exact pgram_hit_restrict p r t_min h

theorem minHit_restrict (ray : Ray) (t_min : ℝ) {t_max t_max' : WithTop ℝ}
    (h : t_max' ≤ t_max) (os : List Object) :
    minHit ray t_min t_max' os = clip t_max' (minHit ray t_min t_max os) := by
  induction os with
  | nil => simp [minHit]
  | cons o os ih =>
    simp only [minHit]
    rw [object_hit_restrict o ray t_min h, ih]
    cases hobj : o.hit ray t_min t_max with
    | none => simp
    | some rec =>
      cases hmin : minHit ray t_min t_max os with
      | none =>
        by_cases hr : ((rec.t : ℝ) : WithTop ℝ) < t_max' <;> simp [hr]
      | some m =>
        by_cases hr : ((rec.t : ℝ) : WithTop ℝ) < t_max' <;>
          by_cases hm : ((m.t : ℝ) : WithTop ℝ) < t_max' <;>
          by_cases h3 : m.t < rec.t
        · simp [hr, hm, h3]
        · simp [hr, hm, h3]
        · exact absurd (lt_trans (WithTop.coe_lt_coe.mpr h3) hr) hm
        · simp [hr, hm, h3]
        · simp [hr, hm, h3]
        · exact absurd (WithTop.coe_lt_coe.mp (lt_of_lt_of_le hm
            (not_lt.mp hr))) h3
        · simp [hr, hm, h3]
        · simp [hr, hm, h3]

theorem worldHitAux_eq_minHit (ray : Ray) (t_min : ℝ) (os : List Object) :
    ∀ (res : Option HitRecord) (closest : WithTop ℝ),
      worldHitAux ray t_min os res closest
        = match minHit ray t_min closest os with
          | none => res
          | some m => some m := by
  induction os with
  | nil => intro res closest; simp [worldHitAux, minHit]
  | cons o os ih =>
    intro res closest
    cases hobj : o.hit ray t_min closest with
    | none =>
      simp only [worldHitAux, hobj, minHit]
      exact ih res closest
    | some rec =>
      have hb := object_hit_t_bound hobj
      simp only [worldHitAux, hobj, minHit]
      rw [ih (some rec) ((rec.t : ℝ) : WithTop ℝ),
        minHit_restrict ray t_min (le_of_lt hb.2) os]
      cases hmin : minHit ray t_min closest os with
      | none => simp
      | some m =>
        by_cases h3 : m.t < rec.t
        · rw [clip_some, if_pos (WithTop.coe_lt_coe.mpr h3)]
          simp [h3]
        · rw [clip_some, if_neg (fun hh => h3 (WithTop.coe_lt_coe.mp hh))]
          simp [h3]

theorem worldHitAux_bound (ray : Ray) (t_min : ℝ) {t_max : WithTop ℝ}
    (os : List Object) :
    ∀ (res : Option HitRecord) (closest : WithTop ℝ),
      closest ≤ t_max →
      (∀ rec, res = some rec → inRange t_min t_max rec.t) →
      ∀ rec', worldHitAux ray t_min os res closest = some rec' →
        inRange t_min t_max rec'.t := by
  induction os with
  | nil =>
    intro res closest _ hres rec' h
    simp only [worldHitAux] at h
    exact hres rec' h
  | cons o os ih =>
    intro res closest hcl hres rec' h
    cases hobj : o.hit ray t_min closest with
    | none =>
      simp only [worldHitAux, hobj] at h
      exact ih res closest hcl hres rec' h
    | some rec =>
      simp only [worldHitAux, hobj] at h
      have hb := object_hit_t_bound hobj
      have hbound : inRange t_min t_max rec.t := ⟨hb.1, lt_of_lt_of_le hb.2 hcl⟩
      refine ih (some rec) _ (le_trans (le_of_lt hb.2) hcl) ?_ rec' h
      intro r hr
      injection hr with hr
      rw [← hr]
      exact hbound

/-- C1: `World::hit` returns exactly the record that direct minimum-`t`
selection over all the individual intersection tests (first object winning
ties) would return, for every ray, every lower bound, every upper bound and
every finite list of primitives. -/
theorem C1_world_hit_is_min_hit (w : World) (ray : Ray) (t_min : ℝ)
    (t_max : WithTop ℝ) :
    w.hit ray t_min t_max = minHit ray t_min t_max w.objects := by
  rw [World.hit, worldHitAux_eq_minHit ray t_min w.objects none t_max]
  cases minHit ray t_min t_max w.objects <;> rfl

/-- C2: for every record built by `HitRecord::new`, `front_face` is true iff
the incoming direction and the raw geometric normal have strictly negative
dot product; the stored normal has non-positive dot product with the
incoming direction, and equals the raw normal when `front_face` is true and
its negation otherwise. -/
theorem C2_front_face_orientation (ray : Ray) (n : Vec3) (t : ℝ) (mat : Material) :
    ((HitRecord.new ray n t mat).front_face = true ↔ Vec3.dot ray.direction n < 0)
    ∧ Vec3.dot ray.direction (HitRecord.new ray n t mat).normal ≤ 0
    ∧ (HitRecord.new ray n t mat).normal =
        (if (HitRecord.new ray n t mat).front_face = true then n else -n) := by
  have hneg : Vec3.dot ray.direction (-n) = -(Vec3.dot ray.direction n) := by
    simp [Vec3.dot]; ring
  by_cases h : Vec3.dot ray.direction n < 0
  · refine ⟨by simp [HitRecord.new, h], ?_, by simp [HitRecord.new, h]⟩
    simp [HitRecord.new, h]
    exact le_of_lt h
  · refine ⟨by simp [HitRecord.new, h], ?_, by simp [HitRecord.new, h]⟩
    simp [HitRecord.new, h, hneg]
    exact le_of_not_lt h

/-- C3: when the sphere quadratic has two real roots (nonzero leading
coefficient, positive discriminant) and `Sphere::hit` returns a record, the
record's parameter is the smaller root when that root lies strictly inside
the bounds, and the larger root — itself in bounds — only otherwise. -/
theorem C3_sphere_prefers_smaller_root (s : Sphere) (r : Ray) (t_min : ℝ)
    (t_max : WithTop ℝ) (t' : ℝ) (ha : sA r ≠ 0) (hd : 0 < sDiscrim s r)
    (h : (s.hit r t_min t_max).map (fun rec => rec.t) = some t') :
    sRoot1 s r < sRoot2 s r
    ∧ ((inRange t_min t_max (sRoot1 s r) ∧ t' = sRoot1 s r)
      ∨ (¬ inRange t_min t_max (sRoot1 s r) ∧ inRange t_min t_max (sRoot2 s r)
          ∧ t' = sRoot2 s r)) := by
  have hapos : 0 < sA r := lt_of_le_of_ne (sA_nonneg r) (Ne.symm ha)
  have hs : 0 < Real.sqrt (sDiscrim s r) := Real.sqrt_pos.mpr hd
  have h12 : sRoot1 s r < sRoot2 s r := by
    rw [sRoot1, sRoot2]
    exact (div_lt_div_iff_of_pos_right hapos).mpr (by linarith)
  refine ⟨h12, ?_⟩
  unfold Sphere.hit at h
  rw [if_neg (not_lt.mpr hd.le)] at h
  by_cases h1 : inRange t_min t_max (sRoot1 s r)
  · rw [if_pos h1] at h
    simp only [Option.map_some', HitRecord.new_t, Option.some.injEq] at h
    exact Or.inl ⟨h1, h.symm⟩
  · rw [if_neg h1] at h
    by_cases h2 : inRange t_min t_max (sRoot2 s r)
    · rw [if_pos h2] at h
      simp only [Option.map_some', HitRecord.new_t, Option.some.injEq] at h
      exact Or.inr ⟨h1, h2, h.symm⟩
    · rw [if_neg h2] at h
      exact Option.noConfusion h

/-- Witness for C3: the unit sphere at `(0,0,3)` seen from the origin along
+z has roots `2` and `4`; the returned parameter is the smaller in-range
root. -/
theorem C3_witness :
    sA exRay ≠ 0 ∧ 0 < sDiscrim exSphere exRay
    ∧ (sRoot1 exSphere exRay < sRoot2 exSphere exRay
      ∧ ((inRange 0 ((10 : ℝ) : WithTop ℝ) (sRoot1 exSphere exRay)
          ∧ (2 : ℝ) = sRoot1 exSphere exRay)
        ∨ (¬ inRange 0 ((10 : ℝ) : WithTop ℝ) (sRoot1 exSphere exRay)
          ∧ inRange 0 ((10 : ℝ) : WithTop ℝ) (sRoot2 exSphere exRay)
          ∧ (2 : ℝ) = sRoot2 exSphere exRay))) := by
  have ha : sA exRay ≠ 0 := by
    norm_num [sA, Vec3.dot, exRay]
  have hd : 0 < sDiscrim exSphere exRay := by
    norm_num [sDiscrim, sHalfB, sC, sA, Vec3.dot, exSphere, exRay]
  refine ⟨ha, hd, ?_⟩
  refine C3_sphere_prefers_smaller_root exSphere exRay 0 ((10 : ℝ) : WithTop ℝ)
    2 ha hd ?_
  have hr1 : sRoot1 exSphere exRay = 2 := by
    norm_num [sRoot1, sDiscrim, sHalfB, sC, sA, Vec3.dot, exSphere, exRay,
      Real.sqrt_one]
  have hd0 : ¬ sDiscrim exSphere exRay < 0 := by
    norm_num [sDiscrim, sHalfB, sC, sA, Vec3.dot, exSphere, exRay]
  have hin : inRange 0 ((10 : ℝ) : WithTop ℝ) (sRoot1 exSphere exRay) := by
    rw [hr1]
    exact ⟨by norm_num, WithTop.coe_lt_coe.mpr (by norm_num)⟩
  rw [Sphere.hit, if_neg hd0, if_pos hin]
  simp [hr1]

/-- C4: every intersection test of every variant — sphere, triangle,
parallelogram, and the aggregate world — that returns a record returns one
whose parameter lies strictly inside the requested open interval. -/
theorem C4_hit_within_open_interval :
    (∀ (o : Object) (ray : Ray) (t_min : ℝ) (t_max : WithTop ℝ) (t' : ℝ),
      (o.hit ray t_min t_max).map (fun rec => rec.t) = some t' →
        t_min < t' ∧ (t' : WithTop ℝ) < t_max)
    ∧ (∀ (w : World) (ray : Ray) (t_min : ℝ) (t_max : WithTop ℝ) (t' : ℝ),
      (w.hit ray t_min t_max).map (fun rec => rec.t) = some t' →
        t_min < t' ∧ (t' : WithTop ℝ) < t_max) := by
  constructor
  · intro o ray t_min t_max t' h
    obtain ⟨rec, hrec, ht⟩ := Option.map_eq_some'.mp h
    rw [← ht]
    exact object_hit_t_bound hrec
  · intro w ray t_min t_max t' h
    obtain ⟨rec, hrec, ht⟩ := Option.map_eq_some'.mp h
    rw [← ht]
    rw [World.hit] at hrec
    exact worldHitAux_bound ray t_min w.objects none t_max le_rfl
      (fun r hr => Option.noConfusion hr) rec hrec

/-- Witness for C4: the concrete parallelogram hit at parameter `1` lies
strictly inside the interval `(0, 2)`. -/
theorem C4_witness :
    (0 : ℝ) < 1 ∧ ((1 : ℝ) : WithTop ℝ) < ((2 : ℝ) : WithTop ℝ) := by
  refine C4_hit_within_open_interval.1 (.parallelogram exPgram) exRayP 0
    ((2 : ℝ) : WithTop ℝ) 1 ?_
  norm_num [Object.hit, Parallelogram.hit, Parallelogram.transform,
    Mat3.fromColumns, Mat3.inverse, Mat3.det, Mat3.mulVec, Vec3.cross,
    Vec3.dot, exPgram, exRayP, exMat, inRange, WithTop.coe_lt_coe]

/-- C5: the radiance integrator returns exactly the zero color for any ray,
world, randomness, and degeneracy test whenever the depth budget is `≤ 0`,
independent of scene contents. -/
theorem C5_depth_exhausted_black (w : World) (r : Ray) (depth : ℤ)
    (rands : ℕ → Rand) (closeEnough : Vec3 → Vec3 → Bool) (h : depth ≤ 0) :
    ray_color w r depth rands closeEnough = 0 := by
  rw [ray_color]
  simp [h]

/-- Witness for C5: an empty world and a concrete ray at depth `0` yield the
zero color. -/
theorem C5_witness :
    ray_color ⟨[]⟩ ⟨0, ⟨0, 0, 1⟩⟩ 0 (fun _ => exRand) (fun _ _ => false) = 0 :=
  C5_depth_exhausted_black ⟨[]⟩ ⟨0, ⟨0, 0, 1⟩⟩ 0 (fun _ => exRand)
    (fun _ _ => false) le_rfl

/-- C6: the triangle test returns a record exactly when the local-frame
matrix is invertible, both solved coordinates are strictly positive with sum
strictly below one, and the negated third coordinate lies strictly inside
the bounds; the parallelogram test is identical except both coordinates must
lie strictly in `(0,1)`. -/
theorem C6_planar_hit_characterization :
    (∀ (tri : Triangle) (ray : Ray) (t_min : ℝ) (t_max : WithTop ℝ),
      (tri.hit ray t_min t_max).isSome = true ↔
        ∃ inv, (tri.transform ray).inverse = some inv
          ∧ 0 < (inv.mulVec (ray.origin - tri.v0)).x
          ∧ 0 < (inv.mulVec (ray.origin - tri.v0)).y
          ∧ (inv.mulVec (ray.origin - tri.v0)).x
              + (inv.mulVec (ray.origin - tri.v0)).y < 1
          ∧ inRange t_min t_max (-(inv.mulVec (ray.origin - tri.v0)).z))
    ∧ (∀ (pg : Parallelogram) (ray : Ray) (t_min : ℝ) (t_max : WithTop ℝ),
      (pg.hit ray t_min t_max).isSome = true ↔
        ∃ inv, (pg.transform ray).inverse = some inv
          ∧ 0 < (inv.mulVec (ray.origin - pg.v0)).x
          ∧ 0 < (inv.mulVec (ray.origin - pg.v0)).y
          ∧ (inv.mulVec (ray.origin - pg.v0)).x < 1
          ∧ (inv.mulVec (ray.origin - pg.v0)).y < 1
          ∧ inRange t_min t_max (-(inv.mulVec (ray.origin - pg.v0)).z)) := by
  constructor
  · intro tri ray t_min t_max
    cases hinv : (tri.transform ray).inverse with
    | none => simp [Triangle.hit, hinv]
    | some inv =>
      simp only [Triangle.hit, hinv]
      split_ifs with hc
      · simp only [Option.isSome_some, true_iff]
        exact ⟨inv, rfl, hc.1, hc.2.1, hc.2.2.1, hc.2.2.2⟩
      · simp only [Option.isSome_none, Bool.false_eq_true, false_iff]
        rintro ⟨inv', hinv', h1, h2, h3, h4⟩
        cases hinv'
        exact hc ⟨h1, h2, h3, h4⟩
  · intro pg ray t_min t_max
    cases hinv : (pg.transform ray).inverse with
    | none => simp [Parallelogram.hit, hinv]
    | some inv =>
      simp only [Parallelogram.hit, hinv]
      split_ifs with hc
      · simp only [Option.isSome_some, true_iff]
        exact ⟨inv, rfl, hc.1, hc.2.1, hc.2.2.1, hc.2.2.2.1, hc.2.2.2.2⟩
      · simp only [Option.isSome_none, Bool.false_eq_true, false_iff]
        rintro ⟨inv', hinv', h1, h2, h3, h4, h5⟩
        cases hinv'
        exact hc ⟨h1, h2, h3, h4, h5⟩

/-- C7: none of the four built-in materials returns `(None, None)` from
`scatter`: the color component is always present, and the scattered-ray
component is present exactly for the non-emissive variants. -/
theorem C7_scatter_never_absorbs (m : Material) (ray : Ray) (rec : HitRecord)
    (rnd : Rand) (closeEnough : Vec3 → Vec3 → Bool) :
    (m.scatter ray rec rnd closeEnough).2.isSome = true
    ∧ ((m.scatter ray rec rnd closeEnough).1.isSome = true
        ↔ m.isEmissive = false) := by
  cases m <;> simp [Material.scatter, Material.isEmissive]

/-- C8: the checker variant selects between its two colors by the parity of
the sum of the three floor-divided cell indices, and for hit points in cells
that differ by exactly one along exactly one axis the opposite color is
selected. -/
theorem C8_checker_parity (x y : Vec3) (f : ℝ) (rec1 rec2 : HitRecord) :
    ((ColorType.checker x y f).color rec1
      = if cellSum rec1.point f % 2 = 0 then x else y)
    ∧ (adjacentCell rec1.point rec2.point f → x ≠ y →
        (ColorType.checker x y f).color rec1
          ≠ (ColorType.checker x y f).color rec2) := by
  have e1 : (ColorType.checker x y f).color rec1
      = if cellSum rec1.point f % 2 = 0 then x else y := rfl
  have e2 : (ColorType.checker x y f).color rec2
      = if cellSum rec2.point f % 2 = 0 then x else y := rfl
  refine ⟨e1, fun hadj hxy => ?_⟩
  have key : cellSum rec1.point f % 2 = 0 ↔ ¬ (cellSum rec2.point f % 2 = 0) := by
    rcases hadj with ⟨h1, h2, h3⟩ | ⟨h1, h2, h3⟩ | ⟨h1, h2, h3⟩ <;>
      [rcases (abs_eq (by norm_num : (0:ℤ) ≤ 1)).mp h1 with h1 | h1;
       rcases (abs_eq (by norm_num : (0:ℤ) ≤ 1)).mp h2 with h2 | h2;
       rcases (abs_eq (by norm_num : (0:ℤ) ≤ 1)).mp h3 with h3 | h3] <;>
      simp only [cellSum] <;> omega
  rw [e1, e2]
  by_cases hp : cellSum rec1.point f % 2 = 0
  · rw [if_pos hp, if_neg (key.mp hp)]
    exact hxy
  · have hq : cellSum rec2.point f % 2 = 0 := by
      by_contra hq
      exact hp (key.mpr hq)
    rw [if_neg hp, if_pos hq]
    exact hxy.symm

/-- Witness for C8: at cell size `1`, the points `(1,2,3)` and `(2,2,3)` sit
in adjacent cells and receive the two distinct checker colors. -/
theorem C8_witness :
    (ColorType.checker ⟨1, 0, 0⟩ ⟨0, 1, 0⟩ 1).color exRec
      ≠ (ColorType.checker ⟨1, 0, 0⟩ ⟨0, 1, 0⟩ 1).color exRec2 := by
  refine (C8_checker_parity ⟨1, 0, 0⟩ ⟨0, 1, 0⟩ 1 exRec exRec2).2 ?_ ?_
  · left
    norm_num [cellX, cellY, cellZ, exRec, exRec2]
  · intro h
    simp [Vec3.mk.injEq] at h

/-- C9: tone mapping sends channel value `1` to exactly `255` and `0` to
exactly `0`, and is monotone non-decreasing in the channel value. -/
theorem C9_tone_mapping (a b : ℝ) (h : a ≤ b) :
    toColorChannel 1 = 255 ∧ toColorChannel 0 = 0
    ∧ toColorChannel a ≤ toColorChannel b := by
  refine ⟨?_, ?_, ?_⟩
  · norm_num [toColorChannel]
  · norm_num [toColorChannel]
  · apply Nat.floor_mono
    apply mul_le_mul_of_nonneg_right _ (by norm_num)
    exact Real.sqrt_le_sqrt (min_le_min (max_le_max h le_rfl) le_rfl)

/-- Witness for C9: monotonicity applied at the concrete pair `0 ≤ 1`. -/
theorem C9_witness :
    (0 : ℝ) ≤ 1 ∧ toColorChannel 0 ≤ toColorChannel 1 :=
  ⟨by norm_num, (C9_tone_mapping 0 1 (by norm_num)).2.2⟩

/-- C10: whenever a built-in material's `scatter` returns a scattered ray,
that ray's origin is exactly the hit record's point. -/
theorem C10_scatter_origin_is_hit_point (m : Material) (ray : Ray)
    (rec : HitRecord) (rnd : Rand) (closeEnough : Vec3 → Vec3 → Bool)
    (r' : Ray) (h : (m.scatter ray rec rnd closeEnough).1 = some r') :
    r'.origin = rec.point := by
  cases m <;> simp [Material.scatter] at h <;> simp [← h]

/-- Witness for C10: a Lambertian scatter at the concrete record `exRec`
produces a ray starting at `exRec.point`. -/
theorem C10_witness :
    (Ray.mk ⟨1, 2, 3⟩ ⟨0, 0, 1⟩).origin = exRec.point := by
  refine C10_scatter_origin_is_hit_point (.lambertian (.solid 0))
    ⟨0, ⟨0, 0, 1⟩⟩ exRec exRand (fun _ _ => false) ⟨⟨1, 2, 3⟩, ⟨0, 0, 1⟩⟩ ?_
  simp [Material.scatter, exRec, exRand]

end

end RT
